import Mathlib

/-!
Verification development for the opentype.js font engine.

The JavaScript sources are embedded shallowly:

* machine arithmetic uses `Int`/`Nat` with explicit wrapping (`% 2 ^ 32`, …);
  JavaScript's `>>` is arithmetic shift on the 32-bit two's-complement
  representation, i.e. floor division after wrapping into the int32 range;
* byte buffers are `List Nat` of byte values; the stateful big-endian cursor
  (`Parser`) is threaded explicitly;
* JavaScript `throw` is modelled with `Except String`;
* the lazy `GlyphSet` is a map from indices to a tagged
  pending-loader-or-resolved-glyph state.
-/

namespace OpenTypeJs

/-- JavaScript `ToInt32`: wrap an integer into the signed 32-bit range.
Applied implicitly by the bitwise and shift operators. -/
def toInt32 (v : Int) : Int := (v + 2147483648) % 4294967296 - 2147483648

/-- JavaScript arithmetic right shift `v >> n`: the operand is wrapped to
int32, then shifted keeping the sign, which is floor division by `2 ^ n`. -/
def jsShr (v : Int) (n : Nat) : Int := toInt32 v / 2 ^ n

/-- JavaScript `v & 0xFF`: wrap to int32, take the low byte (non-negative). -/
def and255 (v : Int) : Int := toInt32 v % 256

/-- `encode.NUMBER16` from types.js: `[28, (v >> 8) & 0xFF, v & 0xFF]`. -/
def encodeNUMBER16 (v : Int) : List Int :=
  [28, and255 (jsShr v 8), and255 v]

/-- `encode.NUMBER32` from types.js:
`[29, (v >> 24) & 0xFF, (v >> 16) & 0xFF, (v >> 8) & 0xFF, v & 0xFF]`. -/
def encodeNUMBER32 (v : Int) : List Int :=
  [29, and255 (jsShr v 24), and255 (jsShr v 16), and255 (jsShr v 8), and255 v]

/-- `encode.NUMBER` from types.js: variable-size encoding of a numeric
operand or charstring number, with the breakpoint buckets of the source. -/
def encodeNUMBER (v : Int) : List Int :=
  if -107 ≤ v ∧ v ≤ 107 then
    [v + 139]
  else if 108 ≤ v ∧ v ≤ 1131 then
    let v2 := v - 108
    let b0 := and255 (jsShr v2 8)
    let b1 := v2 - b0 * 256
    [b0 + 247, b1]
  else if -1131 ≤ v ∧ v ≤ -108 then
    let v2 := -v - 108
    let b0 := and255 (jsShr v2 8)
    let b1 := v2 - b0 * 256
    [b0 + 251, b1]
  else if -32768 ≤ v ∧ v ≤ 32767 then
    encodeNUMBER16 v
  else
    encodeNUMBER32 v

/-! Byte reader.  A buffer is a `List Nat` of byte values (each `< 256`).
`DataView` reads past the buffer end raise in JavaScript; the embedding
returns 0 there and all concrete inputs below stay in bounds. -/

/-- `getByte`: read one byte. -/
def getByteD (data : List Nat) (i : Nat) : Nat := data.getD i 0

/-- `getUShort`: big-endian unsigned 16-bit read. -/
def getUShortD (data : List Nat) (i : Nat) : Nat :=
  256 * getByteD data i + getByteD data (i + 1)

/-- Reinterpret an unsigned 16-bit value as signed two's complement. -/
def asInt16 (u : Nat) : Int :=
  if u < 32768 then (u : Int) else (u : Int) - 65536

/-- `getShort`: big-endian signed 16-bit read. -/
def getShortD (data : List Nat) (i : Nat) : Int := asInt16 (getUShortD data i)

/-- `getULong`: big-endian unsigned 32-bit read. -/
def getULongD (data : List Nat) (i : Nat) : Nat :=
  16777216 * getByteD data i + 65536 * getByteD data (i + 1) +
    256 * getByteD data (i + 2) + getByteD data (i + 3)

/-- The stateful parser of opentype.js: a data view, an absolute base
offset and a running relative cursor.  Reads return the value together
with the advanced parser. -/
structure Parser where
  data : List Nat
  offset : Nat
  relativeOffset : Nat

/-- `Parser.prototype.parseByte`. -/
def Parser.parseByte (p : Parser) : Nat × Parser :=
  (getByteD p.data (p.offset + p.relativeOffset),
   { p with relativeOffset := p.relativeOffset + 1 })

/-- `Parser.prototype.parseUShort`. -/
def Parser.parseUShort (p : Parser) : Nat × Parser :=
  (getUShortD p.data (p.offset + p.relativeOffset),
   { p with relativeOffset := p.relativeOffset + 2 })

/-- `Parser.prototype.parseShort`. -/
def Parser.parseShort (p : Parser) : Int × Parser :=
  (getShortD p.data (p.offset + p.relativeOffset),
   { p with relativeOffset := p.relativeOffset + 2 })

/-- `Parser.prototype.parseULong`. -/
def Parser.parseULong (p : Parser) : Nat × Parser :=
  (getULongD p.data (p.offset + p.relativeOffset),
   { p with relativeOffset := p.relativeOffset + 4 })

/-- `Parser.prototype.skip` for a field of the given width. -/
def Parser.skipBytes (p : Parser) (n : Nat) : Parser :=
  { p with relativeOffset := p.relativeOffset + n }

/-- `isBitSet(b, bitIndex)`: true if the bit at the given index is set. -/
def isBitSet (b : Nat) (bitIndex : Nat) : Bool :=
  b / 2 ^ bitIndex % 2 = 1

/-! Glyph data model (glyf table). -/

/-- A TrueType contour point, as built by `parseGlyph`. -/
structure ContourPoint where
  x : Int
  y : Int
  onCurve : Bool
  lastPointOfContour : Bool
deriving DecidableEq

/-- One component record of a composite glyph.  The source keeps the flag
word only in a local variable; it is recorded here alongside the parsed
fields so that statements can refer to the argument-size flag bit. -/
structure Component where
  flags : Nat
  glyphIndex : Nat
  dx : Int
  dy : Int
deriving DecidableEq

/-- A decoded glyph.  `points = none` models a glyph object without a
`points` property (the zero-length-loca-span stub of `parseGlyfTable`). -/
structure Glyph where
  index : Nat
  numberOfContours : Int
  xMin : Int
  yMin : Int
  xMax : Int
  yMax : Int
  endPointIndices : List Nat
  instructions : List Nat
  points : Option (List ContourPoint)
  isComposite : Bool
  components : List Component
deriving DecidableEq

instance : Inhabited Glyph :=
  ⟨⟨0, 0, 0, 0, 0, 0, [], [], none, false, []⟩⟩

/-- Read `n` consecutive unsigned 16-bit values (the end-point index loop). -/
def parseUShorts (p : Parser) : Nat → List Nat × Parser
  | 0 => ([], p)
  | n + 1 =>
    let r := p.parseUShort
    let rest := parseUShorts r.2 n
    (r.1 :: rest.1, rest.2)

/-- Read `n` consecutive bytes (the instruction loop). -/
def parseBytes (p : Parser) : Nat → List Nat × Parser
  | 0 => ([], p)
  | n + 1 =>
    let r := p.parseByte
    let rest := parseBytes r.2 n
    (r.1 :: rest.1, rest.2)

/-- The run-length-encoded flag loop of `parseGlyph`: read a flag byte; if
bit 3 is set the next byte is a repeat count for that flag.  The loop index
`i` grows by at least one per iteration, so `numberOfCoordinates` outer
iterations always suffice; `fuel` bounds the recursion structurally. -/
def parseFlagsGo (numberOfCoordinates : Nat) :
    Nat → Parser → Nat → List Nat → List Nat × Parser
  | 0, p, _, acc => (acc, p)
  | fuel + 1, p, i, acc =>
    if i < numberOfCoordinates then
      let r := p.parseByte
      let flag := r.1
      if isBitSet flag 3 then
        let r2 := r.2.parseByte
        let repeatCount := r2.1
        parseFlagsGo numberOfCoordinates fuel r2.2 (i + 1 + repeatCount)
          (acc ++ flag :: List.replicate repeatCount flag)
      else
        parseFlagsGo numberOfCoordinates fuel r.2 (i + 1) (acc ++ [flag])
    else (acc, p)

/-- `_parseGlyphCoordinate`: one delta, either a one-byte magnitude with the
`same` bit reused as sign, the previous value, or a two-byte signed delta. -/
def parseGlyphCoordinate (p : Parser) (flag : Nat) (previousValue : Int)
    (shortVectorBit sameBit : Nat) : Int × Parser :=
  if isBitSet flag shortVectorBit then
    let r := p.parseByte
    let v : Int := if isBitSet flag sameBit then (r.1 : Int) else -(r.1 : Int)
    (previousValue + v, r.2)
  else if isBitSet flag sameBit then
    (previousValue, p)
  else
    let r := p.parseShort
    (previousValue + r.1, r.2)

/-- One coordinate pass of `parseGlyph` (X with bits 1/4, Y with bits 2/5):
deltas accumulate relative to the previous point, starting from 0. -/
def parseCoordinates (p : Parser) (prev : Int) (shortVectorBit sameBit : Nat) :
    List Nat → List Int × Parser
  | [] => ([], p)
  | flag :: rest =>
    let r := parseGlyphCoordinate p flag prev shortVectorBit sameBit
    let rs := parseCoordinates r.2 r.1 shortVectorBit sameBit rest
    (r.1 :: rs.1, rs.2)

/-- Assemble the point records of a simple glyph: on-curve from flag bit 0,
contour boundary where the index occurs among the end-point indices, and
the accumulated X and Y coordinates. -/
def buildPoints (flags : List Nat) (endPointIndices : List Nat)
    (xs ys : List Int) : List ContourPoint :=
  (List.range flags.length).map fun i =>
    { x := xs.getD i 0, y := ys.getD i 0,
      onCurve := isBitSet (flags.getD i 0) 0,
      lastPointOfContour := endPointIndices.contains i }

/-- One iteration of the component loop of `parseGlyph`: a component has a
flag word, a child glyph index, dx/dy as signed words (flag bit 0 set) or
as unsigned bytes (bit 0 clear), and an optional scale / 2x2 transform
that is parsed and discarded. -/
def parseComponentBody (p : Parser) : Component × Parser :=
  let rFlags := p.parseUShort
  let flags := rFlags.1
  let rIndex := rFlags.2.parseUShort
  let afterArgs :=
    if isBitSet flags 0 then
      let a1 := rIndex.2.parseShort
      let a2 := a1.2.parseShort
      (a1.1, a2.1, a2.2)
    else
      let a1 := rIndex.2.parseByte
      let a2 := a1.2.parseByte
      ((a1.1 : Int), (a2.1 : Int), a2.2)
  let afterScale :=
    if isBitSet flags 3 then (afterArgs.2.2.parseShort).2
    else if isBitSet flags 6 then ((afterArgs.2.2.parseShort).2.parseShort).2
    else if isBitSet flags 7 then
      ((((afterArgs.2.2.parseShort).2.parseShort).2.parseShort).2.parseShort).2
    else afterArgs.2.2
  ({ flags := flags, glyphIndex := rIndex.1,
     dx := afterArgs.1, dy := afterArgs.2.1 }, afterScale)

/-- The component loop of `parseGlyph`: read one component, then continue
while flag bit 5 ("more components") is set.  Every iteration advances the
cursor, so reads fall off the data and stop the loop; `fuel` bounds the
recursion structurally. -/
def parseComponents : Nat → Parser → List Component × Parser
  | 0, p => ([], p)
  | fuel + 1, p =>
    let r := parseComponentBody p
    if isBitSet r.1.flags 5 then
      let rest := parseComponents fuel r.2
      (r.1 :: rest.1, rest.2)
    else
      ([r.1], r.2)

/-- `parseGlyph`: decode one glyph at an absolute offset.  The header is
five signed 16-bit fields; a positive contour count is a simple glyph, zero
yields an empty point list, negative a composite.  `checkArgument` throws
on a bad flag stream, modelled as `Except.error`. -/
def parseGlyph (data : List Nat) (start : Nat) (index : Nat) :
    Except String Glyph :=
  let p : Parser := ⟨data, start, 0⟩
  let rNc := p.parseShort
  let numberOfContours := rNc.1
  let rXMin := rNc.2.parseShort
  let rYMin := rXMin.2.parseShort
  let rXMax := rYMin.2.parseShort
  let rYMax := rXMax.2.parseShort
  if 0 < numberOfContours then
    let rEnds := parseUShorts rYMax.2 numberOfContours.toNat
    let endPointIndices := rEnds.1
    let rInstrLen := rEnds.2.parseUShort
    let rInstr := parseBytes rInstrLen.2 rInstrLen.1
    let numberOfCoordinates := endPointIndices.getLastD 0 + 1
    let rFlags := parseFlagsGo numberOfCoordinates numberOfCoordinates rInstr.2 0 []
    let flags := rFlags.1
    if flags.length = numberOfCoordinates then
      if 0 < endPointIndices.length then
        let rXs := parseCoordinates rFlags.2 0 1 4 flags
        let rYs := parseCoordinates rXs.2 0 2 5 flags
        .ok { index := index, numberOfContours := numberOfContours,
              xMin := rXMin.1, yMin := rYMin.1, xMax := rXMax.1, yMax := rYMax.1,
              endPointIndices := endPointIndices, instructions := rInstr.1,
              points := some (buildPoints flags endPointIndices rXs.1 rYs.1),
              isComposite := false, components := [] }
      else
        .ok { index := index, numberOfContours := numberOfContours,
              xMin := rXMin.1, yMin := rYMin.1, xMax := rXMax.1, yMax := rYMax.1,
              endPointIndices := endPointIndices, instructions := rInstr.1,
              points := some [], isComposite := false, components := [] }
    else
      .error "Bad flags."
  else if numberOfContours = 0 then
    .ok { index := index, numberOfContours := numberOfContours,
          xMin := rXMin.1, yMin := rYMin.1, xMax := rXMax.1, yMax := rYMax.1,
          endPointIndices := [], instructions := [], points := some [],
          isComposite := false, components := [] }
  else
    let rComps := parseComponents (data.length + 1) rYMax.2
    .ok { index := index, numberOfContours := numberOfContours,
          xMin := rXMin.1, yMin := rYMin.1, xMax := rXMax.1, yMax := rYMax.1,
          endPointIndices := [], instructions := [], points := some [],
          isComposite := true, components := rComps.1 }

/-- The stub pushed by `parseGlyfTable` for a zero-length loca span:
`{index: i, numberOfContours: 0, xMin: 0, xMax: 0, yMin: 0, yMax: 0}`,
with no `points` property. -/
def emptyGlyph (i : Nat) : Glyph :=
  { index := i, numberOfContours := 0, xMin := 0, yMin := 0, xMax := 0,
    yMax := 0, endPointIndices := [], instructions := [], points := none,
    isComposite := false, components := [] }

/-- First pass of `parseGlyfTable` over consecutive loca offset pairs:
a zero-length span yields the stub, otherwise the glyph is parsed at
`start + offset`; a thrown parse error aborts the pass. -/
def parseGlyfPass1 (data : List Nat) (start : Nat) :
    List (Nat × Nat) → Nat → Except String (List Glyph)
  | [], _ => .ok []
  | (o, nextO) :: rest, i =>
    if o ≠ nextO then
      match parseGlyph data (start + o) i with
      | .error e => .error e
      | .ok g =>
        match parseGlyfPass1 data start rest (i + 1) with
        | .error e => .error e
        | .ok gs => .ok (g :: gs)
    else
      match parseGlyfPass1 data start rest (i + 1) with
      | .error e => .error e
      | .ok gs => .ok (emptyGlyph i :: gs)

/-- `transformPoints`: translate an array of points by `(dx, dy)`,
preserving the on-curve and contour-boundary flags. -/
def transformPoints (points : List ContourPoint) (dx dy : Int) :
    List ContourPoint :=
  points.map fun pt =>
    { x := pt.x + dx, y := pt.y + dy, onCurve := pt.onCurve,
      lastPointOfContour := pt.lastPointOfContour }

/-- One component absorption of the composite resolution pass: if the
referenced glyph has points, append their translation to the points of the
glyph at position `i` (composites always carry a points array). -/
def absorbComponent (i : Nat) (gs : List Glyph) (component : Component) :
    List Glyph :=
  let glyph := gs.getD i default
  let componentGlyph := gs.getD component.glyphIndex default
  match componentGlyph.points, glyph.points with
  | some componentPoints, some glyphPoints =>
    gs.set i { glyph with
      points := some (glyphPoints ++
        transformPoints componentPoints component.dx component.dy) }
  | _, _ => gs

/-- Resolve the composite glyph at position `i`: absorb each component in
order, reading the current state of the glyph array. -/
def resolveComponentsAt (gs : List Glyph) (i : Nat) : List Glyph :=
  ((gs.getD i default).components).foldl (absorbComponent i) gs

/-- One step of the second pass: only composite glyphs are touched. -/
def resolveStep (gs : List Glyph) (i : Nat) : List Glyph :=
  if (gs.getD i default).isComposite then resolveComponentsAt gs i else gs

/-- Second pass of `parseGlyfTable`: go over the glyphs again in index
order, resolving the composite glyphs. -/
def resolveComposites (glyphs : List Glyph) : List Glyph :=
  (List.range glyphs.length).foldl resolveStep glyphs

/-- `parseGlyfTable`: parse all glyphs according to the loca offsets (the
last loca element only closes the final span), then resolve composites. -/
def parseGlyfTable (data : List Nat) (start : Nat) (loca : List Nat) :
    Except String (List Glyph) :=
  match parseGlyfPass1 data start (loca.zip loca.tail) 0 with
  | .error e => .error e
  | .ok glyphs => .ok (resolveComposites glyphs)

/-! Glyph outline builder.  A `Path` is modelled by its ordered command
list (the `fill`/`stroke` presentation fields play no role); midpoint
coordinates are halves, so commands carry rationals. -/

/-- Decidable equality for thrown-or-returned results, used to evaluate
concrete runs. -/
instance {ε α : Type} [DecidableEq ε] [DecidableEq α] :
    DecidableEq (Except ε α)
  | .error a, .error b =>
    if h : a = b then .isTrue (by rw [h]) else
      .isFalse (by intro hc; cases hc; exact h rfl)
  | .error a, .ok b => .isFalse (by intro hc; cases hc)
  | .ok a, .error b => .isFalse (by intro hc; cases hc)
  | .ok a, .ok b =>
    if h : a = b then .isTrue (by rw [h]) else
      .isFalse (by intro hc; cases hc; exact h rfl)

/-- One drawing command of a `Path`. -/
inductive PathCmd where
  | move (x y : ℚ)
  | line (x y : ℚ)
  | quad (x1 y1 x y : ℚ)
  | curve (x1 y1 x2 y2 x y : ℚ)
  | close
deriving DecidableEq

/-- Number of close commands in a command list. -/
def countClose (cmds : List PathCmd) : Nat :=
  cmds.countP fun c => decide (c = PathCmd.close)

/-- One step of the contour splitting loop of `getContours`: push the point
onto the current contour and flush it at a contour boundary. -/
def contoursStep (st : List (List ContourPoint) × List ContourPoint)
    (pt : ContourPoint) : List (List ContourPoint) × List ContourPoint :=
  let currentContour := st.2 ++ [pt]
  if pt.lastPointOfContour then (st.1 ++ [currentContour], [])
  else (st.1, currentContour)

/-- `getContours`: split the points into contours at `lastPointOfContour`
boundaries; leftover points after the loop are a fatal error
(`checkArgument`). -/
def getContours (points : List ContourPoint) :
    Except String (List (List ContourPoint)) :=
  let st := points.foldl contoursStep ([], [])
  if st.2 = [] then .ok st.1
  else .error "There are still points left in the current contour."

/-- The per-point walk of `glyphToPath` from the second point on, carrying
the previous point and the pending control point; after the last point the
contour is connected back to its first point with a quadratic curve if a
control point is pending, a straight line otherwise.  In the JavaScript
source an off-curve-to-on-curve step with no pending control point
dereferences `null`; that is the error case. -/
def contourWalk (tx ty : ℚ) (firstPt : ContourPoint) :
    ContourPoint → Option (ℚ × ℚ) → List ContourPoint →
    Except String (List PathCmd)
  | _, curvePt, [] =>
    match curvePt with
    | some c =>
      .ok [.quad (tx + c.1) (ty - c.2) (tx + (firstPt.x : ℚ)) (ty - (firstPt.y : ℚ))]
    | none => .ok [.line (tx + (firstPt.x : ℚ)) (ty - (firstPt.y : ℚ))]
  | prevPt, curvePt, pt :: rest =>
    if prevPt.onCurve ∧ pt.onCurve then
      (contourWalk tx ty firstPt pt curvePt rest).map
        (PathCmd.line (tx + (pt.x : ℚ)) (ty - (pt.y : ℚ)) :: ·)
    else if prevPt.onCurve ∧ ¬pt.onCurve then
      contourWalk tx ty firstPt pt (some ((pt.x : ℚ), (pt.y : ℚ))) rest
    else if ¬prevPt.onCurve ∧ ¬pt.onCurve then
      let midX : ℚ := ((prevPt.x + pt.x : Int) : ℚ) / 2
      let midY : ℚ := ((prevPt.y + pt.y : Int) : ℚ) / 2
      (contourWalk tx ty firstPt pt (some ((pt.x : ℚ), (pt.y : ℚ))) rest).map
        (PathCmd.quad (tx + (prevPt.x : ℚ)) (ty - (prevPt.y : ℚ))
          (tx + midX) (ty - midY) :: ·)
    else
      match curvePt with
      | some c =>
        (contourWalk tx ty firstPt pt none rest).map
          (PathCmd.quad (tx + c.1) (ty - c.2)
            (tx + (pt.x : ℚ)) (ty - (pt.y : ℚ)) :: ·)
      | none => .error "null control point"

/-- Commands of one contour: an on-curve first point starts the path there;
an off-curve first point synthesizes the start as the midpoint between it
and the contour's last point (which also becomes the pending control
point of the walk, as in the source). -/
def contourCommands (tx ty : ℚ) (contour : List ContourPoint) :
    Except String (List PathCmd) :=
  match contour with
  | [] => .ok []
  | firstPt :: rest =>
    let prevPt := contour.getLastD firstPt
    if firstPt.onCurve then
      (contourWalk tx ty firstPt firstPt none rest).map
        (PathCmd.move (tx + (firstPt.x : ℚ)) (ty - (firstPt.y : ℚ)) :: ·)
    else
      let midX : ℚ := ((prevPt.x + firstPt.x : Int) : ℚ) / 2
      let midY : ℚ := ((prevPt.y + firstPt.y : Int) : ℚ) / 2
      (contourWalk tx ty firstPt firstPt (some (midX, midY)) rest).map
        (PathCmd.move (tx + midX) (ty - midY) :: ·)

/-- Concatenated commands of all contours (`_.each` appending to the path;
a thrown error aborts). -/
def pathCommandsOfContours (tx ty : ℚ) :
    List (List ContourPoint) → Except String (List PathCmd)
  | [] => .ok []
  | contour :: rest =>
    match contourCommands tx ty contour with
    | .error e => .error e
    | .ok cmds =>
      match pathCommandsOfContours tx ty rest with
      | .error e => .error e
      | .ok more => .ok (cmds ++ more)

/-- `glyphToPath`: a glyph without a `points` property yields the empty
path; otherwise the points are split into contours, each contour is walked,
and one close command is appended after the loop over the contours. -/
def glyphToPath (glyph : Glyph) (tx ty : ℚ) : Except String (List PathCmd) :=
  match glyph.points with
  | none => .ok []
  | some points =>
    match getContours points with
    | .error e => .error e
    | .ok contours =>
      match pathCommandsOfContours tx ty contours with
      | .error e => .error e
      | .ok cmds => .ok (cmds ++ [.close])

/-! The cmap character-to-glyph-index lookup (format 4 segments). -/

/-- One cmap segment: `{start, end, idDelta, ids?}`; `end` is a Lean
keyword, so the field is called `endCode`.  `ids` is present exactly when
the segment had a nonzero `idRangeOffset`. -/
structure CmapRange where
  start : Nat
  endCode : Nat
  idDelta : Int
  ids : Option (List Nat)
deriving DecidableEq

instance : Inhabited CmapRange := ⟨⟨0, 0, 0, none⟩⟩

/-- The binary search loop of `charToGlyphIndex`: while `l < r`, probe
`c = (l + r + 1) >> 1` and keep the half whose start can still contain the
code.  `r - l` shrinks every iteration, so `ranges.length` iterations
always suffice; `fuel` bounds the recursion structurally. -/
def cmapSearchGo (ranges : List CmapRange) (code : Nat) :
    Nat → Nat → Nat → Nat
  | 0, l, _ => l
  | fuel + 1, l, r =>
    if l < r then
      let c := (l + r + 1) / 2
      if code < (ranges.getD c default).start then
        cmapSearchGo ranges code fuel l (c - 1)
      else
        cmapSearchGo ranges code fuel c r
    else l

/-- `Font.prototype.charToGlyphIndex` on a code point: binary-search the
segment, then map through the id array or the delta, masking with
`& 0xFFFF`; a code point outside the found segment yields 0. -/
def charToGlyphIndex (ranges : List CmapRange) (code : Nat) : Nat :=
  let l := cmapSearchGo ranges code ranges.length 0 (ranges.length - 1)
  let range := ranges.getD l default
  if range.start ≤ code ∧ code ≤ range.endCode then
    ((range.idDelta +
      (match range.ids with
       | some ids => ((ids.getD (code - range.start) 0 : Nat) : Int)
       | none => (code : Int))) % 65536).toNat
  else 0

/-- Segments ordered ascending and non-overlapping, with well-formed
bounds: every segment has `start ≤ end`, and each segment ends strictly
before the next one starts. -/
def SortedRanges (ranges : List CmapRange) : Prop :=
  (∀ i, i < ranges.length →
    (ranges.getD i default).start ≤ (ranges.getD i default).endCode) ∧
  ∀ j, j < ranges.length → ∀ i, i < j →
    (ranges.getD i default).endCode < (ranges.getD j default).start

instance (ranges : List CmapRange) : Decidable (SortedRanges ranges) := by
  unfold SortedRanges; infer_instance

/-! Kerning. -/

/-- `Font.prototype.getKerningValue` on glyph indices, without a GPOS
kerning source: look the ordered pair up in the kerning-pair table
(a JavaScript object keyed by `left + ',' + right`), defaulting to 0. -/
def getKerningValue (kerningPairs : List ((Nat × Nat) × Int))
    (leftGlyph rightGlyph : Nat) : Int :=
  (kerningPairs.lookup (leftGlyph, rightGlyph)).getD 0

/-! The lazy glyph set. -/

/-- One slot of a `GlyphSet`: either the deferred zero-argument producer
pushed by the loaders, or the glyph it materialized into. -/
inductive GlyphEntry (α : Type) where
  | pending (loader : Unit → α)
  | resolved (g : α)

/-- `GlyphSet`: per glyph index either a producer or a materialized glyph
(absent indices are `none`). -/
structure GlyphSet (α : Type) where
  glyphs : Nat → Option (GlyphEntry α)

/-- `GlyphSet.prototype.get`: a stored producer is invoked and replaced by
its result; the slot value is returned.  The boolean reports whether this
call invoked a producer. -/
def GlyphSet.get {α : Type} (s : GlyphSet α) (index : Nat) :
    Option α × GlyphSet α × Bool :=
  match s.glyphs index with
  | some (.pending loader) =>
    let g := loader ()
    (some g,
     ⟨fun i => if i = index then some (.resolved g) else s.glyphs i⟩,
     true)
  | some (.resolved g) => (some g, s, false)
  | none => (none, s, false)

/-- `GlyphSet.prototype.push`: store a loader (or glyph) at an index. -/
def GlyphSet.push {α : Type} (s : GlyphSet α) (index : Nat)
    (loader : Unit → α) : GlyphSet α :=
  ⟨fun i => if i = index then some (.pending loader) else s.glyphs i⟩

/-- Run a sequence of `get` calls for their state effect. -/
def runGets {α : Type} (s : GlyphSet α) (l : List Nat) : GlyphSet α :=
  l.foldl (fun st i => (GlyphSet.get st i).2.1) s

/-- A concrete one-slot glyph set with a deferred producer at index 0. -/
def c3Set : GlyphSet Nat :=
  ⟨fun i => if i = 0 then some (.pending fun _ => 7) else none⟩

/-- A concrete point list forming two one-point contours. -/
def c5Points : List ContourPoint :=
  [⟨0, 0, true, true⟩, ⟨10, 0, true, true⟩]

/-- A concrete simple glyph with two contours. -/
def c5Glyph : Glyph :=
  { index := 0, numberOfContours := 2, xMin := 0, yMin := 0, xMax := 10,
    yMax := 0, endPointIndices := [0, 1], instructions := [],
    points := some c5Points, isComposite := false, components := [] }

/-- A concrete sorted cmap segment table: two delta segments and the
sentinel. -/
def c2Ranges : List CmapRange :=
  [⟨10, 20, 5, none⟩, ⟨30, 40, -2, none⟩, ⟨65535, 65535, 1, none⟩]

/-- A concrete glyph record with contour count 0, bbox header bytes
`xMin = 1` and a nonzero loca span: ten header bytes. -/
def c4Data : List Nat := [0, 0, 0, 1, 0, 0, 0, 0, 0, 0]

/-- The glyph `parseGlyph` decodes from `c4Data`. -/
def c4ParsedGlyph : Glyph :=
  { index := 0, numberOfContours := 0, xMin := 1, yMin := 0, xMax := 0,
    yMax := 0, endPointIndices := [], instructions := [], points := some [],
    isComposite := false, components := [] }

/-- The component of the concrete C7 composite: child glyph 3, offsets
(10, 20). -/
def c7Component : Component := ⟨0, 3, 10, 20⟩

/-- A concrete simple glyph at index 3 with the single point (5, 5). -/
def c7Simple : Glyph :=
  { index := 3, numberOfContours := 1, xMin := 5, yMin := 5, xMax := 5,
    yMax := 5, endPointIndices := [0], instructions := [],
    points := some [⟨5, 5, true, true⟩], isComposite := false,
    components := [] }

/-- A concrete composite glyph at index 0 referencing glyph 3. -/
def c7Composite : Glyph :=
  { index := 0, numberOfContours := -1, xMin := 0, yMin := 0, xMax := 0,
    yMax := 0, endPointIndices := [], instructions := [], points := some [],
    isComposite := true, components := [c7Component] }

/-- The concrete glyph array of the C7 instance. -/
def c7Glyphs : List Glyph :=
  [c7Composite, emptyGlyph 1, emptyGlyph 2, c7Simple]

/-- Concrete bytes of one composite component with byte-sized arguments:
flag word 0 (bit 0 clear, bit 5 clear), glyph index 3, dx byte 200,
dy byte 220. -/
def c10Data : List Nat := [0, 0, 0, 3, 200, 220]

/-- The command list `glyphToPath` produces for `c5Glyph` at the origin. -/
def c5WitnessCmds : List PathCmd :=
  [.move (0 + ((0 : Int) : ℚ)) (0 - ((0 : Int) : ℚ)),
   .line (0 + ((0 : Int) : ℚ)) (0 - ((0 : Int) : ℚ)),
   .move (0 + ((10 : Int) : ℚ)) (0 - ((0 : Int) : ℚ)),
   .line (0 + ((10 : Int) : ℚ)) (0 - ((0 : Int) : ℚ)),
   .close]

/-! The parseBuffer version gate. -/

/-- Modelled from the spec: `parse.getFixed` lives in src/parse.js, which
is not among the sources; per the spec it reads a 32-bit big-endian value
as 16.16 fixed point. -/
def getFixedD (data : List Nat) (i : Nat) : ℚ := (getULongD data i : ℚ) / 65536

/-- Modelled from the spec: `parse.getTag` lives in src/parse.js, which is
not among the sources; per the spec it reads a 4-byte ASCII tag, kept here
as its bytes. -/
def getTagD (data : List Nat) (i : Nat) : List Nat :=
  [getByteD data i, getByteD data (i + 1), getByteD data (i + 2),
   getByteD data (i + 3)]

/-- The outline formats of a Font. -/
inductive OutlinesFormat where
  | truetype
  | cff
deriving DecidableEq

/-- The byte values of the ASCII tag `OTTO`. -/
def ottoTag : List Nat := [79, 84, 84, 79]

/-- The version gate at the top of `parseBuffer` (src/opentype.js): a
16.16 version of exactly 1.0 signals TrueType outlines, the tag `OTTO`
signals CFF outlines, anything else throws before any table is decoded
(the table directory loop only runs after this gate). -/
def parseBufferVersion (data : List Nat) : Except String OutlinesFormat :=
  if getFixedD data 0 = 1 then .ok .truetype
  else if getTagD data 0 = ottoTag then .ok .cff
  else .error "Unsupported OpenType version"

end OpenTypeJs

namespace OpenTypeJs

/-- C1: `encode.NUMBER` picks the representation determined solely by the
breakpoint bucket containing `v`: one byte `v + 139` on `[-107, 107]`;
two bytes `[247 + hi, lo]` of `v - 108` on `[108, 1131]`; two bytes
`[251 + hi, lo]` of `-v - 108` on `[-1131, -108]`; three bytes
`[0x1C, hi, lo]` of `v` as a 16-bit two's-complement value on
`[-32768, 32767]` otherwise; and five bytes `0x1D` followed by `v` as a
4-byte big-endian two's-complement value otherwise. -/
theorem encodeNUMBER_buckets (v : Int) :
    (-107 ≤ v → v ≤ 107 → encodeNUMBER v = [v + 139]) ∧
    (108 ≤ v → v ≤ 1131 →
      encodeNUMBER v = [247 + (v - 108) / 256, (v - 108) % 256]) ∧
    (-1131 ≤ v → v ≤ -108 →
      encodeNUMBER v = [251 + (-v - 108) / 256, (-v - 108) % 256]) ∧
    (-32768 ≤ v → v ≤ 32767 → (v < -1131 ∨ 1131 < v) →
      encodeNUMBER v = [28, v % 65536 / 256, v % 256]) ∧
    ((v < -32768 ∨ 32767 < v) → -2147483648 ≤ v → v ≤ 2147483647 →
      encodeNUMBER v = [29, v % 4294967296 / 16777216,
        v % 4294967296 / 65536 % 256, v % 4294967296 / 256 % 256, v % 256]) := by
  refine ⟨?_, ?_, ?_, ?_, ?_⟩ <;>
    · intros
      simp only [encodeNUMBER, encodeNUMBER16, encodeNUMBER32, and255, jsShr, toInt32]
      split_ifs <;>
        · simp only [List.cons.injEq, and_true, true_and]
          try norm_num
          try omega

/-- Witness: the bucket description of C1 evaluated at one input per bucket. -/
theorem encodeNUMBER_buckets_witness :
    encodeNUMBER 0 = [0 + 139] ∧
    encodeNUMBER 200 = [247 + (200 - 108) / 256, (200 - 108) % 256] ∧
    encodeNUMBER (-200) = [251 + (-(-200) - 108) / 256, (-(-200) - 108) % 256] ∧
    encodeNUMBER 2000 = [28, 2000 % 65536 / 256, 2000 % 256] ∧
    encodeNUMBER (-40000) = [29, (-40000) % 4294967296 / 16777216,
      (-40000) % 4294967296 / 65536 % 256, (-40000) % 4294967296 / 256 % 256,
      (-40000) % 256] :=
  ⟨(encodeNUMBER_buckets 0).1 (by norm_num) (by norm_num),
   (encodeNUMBER_buckets 200).2.1 (by norm_num) (by norm_num),
   (encodeNUMBER_buckets (-200)).2.2.1 (by norm_num) (by norm_num),
   (encodeNUMBER_buckets 2000).2.2.2.1 (by norm_num) (by norm_num) (by norm_num),
   (encodeNUMBER_buckets (-40000)).2.2.2.2 (by norm_num) (by norm_num) (by norm_num)⟩

/-- C9: `getKerningValue` returns the stored signed adjustment for a
present ordered pair and 0 for every absent pair; in particular, for a
kerning table holding exactly the pair `(4, 9) ↦ -50`, the pair `(4, 9)`
yields -50, and the reversed pair `(9, 4)` yields 0. -/
theorem getKerningValue_spec :
    (∀ (kerningPairs : List ((Nat × Nat) × Int)) (leftGlyph rightGlyph : Nat)
      (v : Int), kerningPairs.lookup (leftGlyph, rightGlyph) = some v →
      getKerningValue kerningPairs leftGlyph rightGlyph = v) ∧
    (∀ (kerningPairs : List ((Nat × Nat) × Int)) (leftGlyph rightGlyph : Nat),
      kerningPairs.lookup (leftGlyph, rightGlyph) = none →
      getKerningValue kerningPairs leftGlyph rightGlyph = 0) ∧
    getKerningValue [((4, 9), -50)] 4 9 = -50 ∧
    getKerningValue [((4, 9), -50)] 9 4 = 0 := by
  refine ⟨?_, ?_, by decide, by decide⟩ <;>
    · intros _ _ _
      first
      | (intro v h; simp [getKerningValue, h])
      | (intro h; simp [getKerningValue, h])

/-- Witness for C9: the general present- and absent-pair statements
evaluated on concrete tables. -/
theorem getKerningValue_spec_witness :
    getKerningValue [((1, 2), 7)] 1 2 = 7 ∧
    getKerningValue [((1, 2), 7)] 3 4 = 0 :=
  ⟨getKerningValue_spec.1 [((1, 2), 7)] 1 2 7 (by decide),
   getKerningValue_spec.2.1 [((1, 2), 7)] 3 4 (by decide)⟩

/-- C8: a buffer whose first four bytes are neither the 16.16 fixed value
0x00010000 (version 1.0, TrueType outlines) nor the ASCII tag `OTTO` (CFF
outlines) makes the version gate of `parseBuffer` throw the
unsupported-version error; the gate runs before the table directory loop,
so no table is decoded. -/
theorem parseBufferVersion_unsupported (data : List Nat)
    (_hlen : 4 ≤ data.length)
    (hver : getULongD data 0 ≠ 0x00010000)
    (htag : getTagD data 0 ≠ ottoTag) :
    parseBufferVersion data = .error "Unsupported OpenType version" := by
  have hq : getFixedD data 0 ≠ 1 := by
    unfold getFixedD
    intro h
    rw [div_eq_one_iff_eq (by norm_num : (65536 : ℚ) ≠ 0)] at h
    exact hver (by exact_mod_cast h)
  unfold parseBufferVersion
  rw [if_neg hq, if_neg htag]

/-- Witness for C8: the version gate rejects a concrete non-font buffer. -/
theorem parseBufferVersion_unsupported_witness :
    parseBufferVersion [1, 2, 3, 4] = .error "Unsupported OpenType version" :=
  parseBufferVersion_unsupported [1, 2, 3, 4] (by norm_num) (by decide) (by decide)

/-- After a `get`, repeated `get` calls never change a slot that holds a
resolved glyph. -/
theorem runGets_resolved_stable {α : Type} (index : Nat) (g : α) :
    ∀ (l : List Nat) (s : GlyphSet α), s.glyphs index = some (.resolved g) →
      (runGets s l).glyphs index = some (.resolved g) := by
  intro l
  induction l with
  | nil => intro s hs; simpa [runGets] using hs
  | cons j rest ih =>
    intro s hs
    show (runGets ((GlyphSet.get s j).2.1) rest).glyphs index = _
    apply ih
    unfold GlyphSet.get
    rcases hj : s.glyphs j with _ | e
    · simpa using hs
    · rcases e with loader | g2
      · simp only []
        by_cases hij : index = j
        · rw [hij] at hs; rw [hs] at hj; cases hj
        · simpa [hij] using hs
      · simpa using hs

/-- C3: populating a `GlyphSet` slot with a deferred producer, the first
`get` invokes the producer once and replaces the slot by the materialized
glyph, and every later `get` of that index — after any further sequence of
`get` calls — returns the identical cached glyph without invoking any
producer and without changing the state. -/
theorem glyphSet_get_memoizes {α : Type} (s : GlyphSet α) (index : Nat)
    (loader : Unit → α) (h : s.glyphs index = some (.pending loader)) :
    (GlyphSet.get s index).1 = some (loader ()) ∧
    (GlyphSet.get s index).2.2 = true ∧
    ((GlyphSet.get s index).2.1).glyphs index = some (.resolved (loader ())) ∧
    ∀ l : List Nat,
      GlyphSet.get (runGets (GlyphSet.get s index).2.1 l) index =
        (some (loader ()), runGets (GlyphSet.get s index).2.1 l, false) := by
  have hres : ((GlyphSet.get s index).2.1).glyphs index =
      some (.resolved (loader ())) := by
    simp [GlyphSet.get, h]
  refine ⟨by simp [GlyphSet.get, h], by simp [GlyphSet.get, h], hres, ?_⟩
  intro l
  have hstable := runGets_resolved_stable index (loader ()) l _ hres
  generalize hS2 : runGets (GlyphSet.get s index).2.1 l = S2 at hstable ⊢
  simp [GlyphSet.get, hstable]

/-- Witness for C3: a concrete glyph set with one deferred producer. -/
theorem glyphSet_get_memoizes_witness :
    (GlyphSet.get c3Set 0).1 = some 7 ∧
    (GlyphSet.get c3Set 0).2.2 = true ∧
    ((GlyphSet.get c3Set 0).2.1).glyphs 0 = some (.resolved 7) ∧
    GlyphSet.get (runGets (GlyphSet.get c3Set 0).2.1 [0, 5, 0]) 0 =
      (some 7, runGets (GlyphSet.get c3Set 0).2.1 [0, 5, 0], false) := by
  have h := glyphSet_get_memoizes c3Set 0 (fun _ => 7) rfl
  exact ⟨h.1, h.2.1, h.2.2.1, h.2.2.2 [0, 5, 0]⟩

/-- The contour-splitting fold preserves the points: the flushed contours
followed by the current contour always flatten back to the consumed
points. -/
theorem contours_foldl_flatten (pts : List ContourPoint) :
    ∀ (acc : List (List ContourPoint)) (cur : List ContourPoint),
      (pts.foldl contoursStep (acc, cur)).1.flatten ++
        (pts.foldl contoursStep (acc, cur)).2 = acc.flatten ++ cur ++ pts := by
  induction pts with
  | nil => intro acc cur; simp
  | cons p rest ih =>
    intro acc cur
    simp only [List.foldl_cons]
    rcases hp : p.lastPointOfContour with _ | _
    · rw [show contoursStep (acc, cur) p = (acc, cur ++ [p]) by
        simp [contoursStep, hp]]
      rw [ih]
      simp
    · rw [show contoursStep (acc, cur) p = (acc ++ [cur ++ [p]], []) by
        simp [contoursStep, hp]]
      rw [ih]
      simp

/-- Unfolded success case of `getContours`. -/
theorem getContours_eq_ok_of (points : List ContourPoint)
    (h : (points.foldl contoursStep ([], [])).2 = []) :
    getContours points = .ok (points.foldl contoursStep ([], [])).1 := by
  unfold getContours
  simp [h]

/-- Unfolded failure case of `getContours`. -/
theorem getContours_eq_error_of (points : List ContourPoint)
    (h : ¬(points.foldl contoursStep ([], [])).2 = []) :
    getContours points =
      .error "There are still points left in the current contour." := by
  unfold getContours
  simp [h]

/-- C6: splitting a point list into contours at `lastPointOfContour`
boundaries partitions the list exactly: when the final point carries the
flag, `getContours` succeeds and the returned contours flatten back to the
point list (every point lies in exactly one contour); when the final point
lacks the flag, the leftover points are a fatal error, which
`glyphToPath` propagates. -/
theorem getContours_partitions (points : List ContourPoint)
    (pt : ContourPoint) (hlast : points.getLast? = some pt) :
    (pt.lastPointOfContour = true →
      ∃ contours, getContours points = .ok contours ∧
        contours.flatten = points) ∧
    (pt.lastPointOfContour = false →
      getContours points =
        .error "There are still points left in the current contour." ∧
      ∀ (glyph : Glyph) (tx ty : ℚ), glyph.points = some points →
        glyphToPath glyph tx ty =
          .error "There are still points left in the current contour.") := by
  obtain ⟨front, rfl⟩ := List.getLast?_eq_some_iff.mp hlast
  have hfold := contours_foldl_flatten (front ++ [pt]) [] []
  constructor
  · intro hflag
    have hcur : ((front ++ [pt]).foldl contoursStep ([], [])).2 = [] := by
      rw [List.foldl_append]
      simp [contoursStep, hflag]
    refine ⟨((front ++ [pt]).foldl contoursStep ([], [])).1,
      getContours_eq_ok_of _ hcur, ?_⟩
    rw [hcur, List.append_nil] at hfold
    simpa using hfold
  · intro hflag
    have hcur : ¬((front ++ [pt]).foldl contoursStep ([], [])).2 = [] := by
      rw [List.foldl_append]
      simp [contoursStep, hflag]
    have herr := getContours_eq_error_of _ hcur
    refine ⟨herr, ?_⟩
    intro glyph tx ty hp
    simp [glyphToPath, hp, herr]

/-- Witness for C6: a flagged final point splits exactly; dropping the
flag raises the leftover-points error also through `glyphToPath`. -/
theorem getContours_partitions_witness :
    (∃ contours,
      getContours [⟨3, 4, true, true⟩] = .ok contours ∧
        contours.flatten = [⟨3, 4, true, true⟩]) ∧
    getContours [(⟨3, 4, true, false⟩ : ContourPoint)] =
      .error "There are still points left in the current contour." :=
  ⟨(getContours_partitions [⟨3, 4, true, true⟩] ⟨3, 4, true, true⟩
      (by decide)).1 rfl,
   ((getContours_partitions [⟨3, 4, true, false⟩] ⟨3, 4, true, false⟩
      (by decide)).2 rfl).1⟩

/-- An `Except.map` that lands in `ok` comes from an `ok`. -/
theorem except_map_ok {ε α β : Type} {e : Except ε α} {f : α → β} {b : β}
    (h : e.map f = .ok b) : ∃ a, e = .ok a ∧ f a = b := by
  cases e with
  | error err => simp [Except.map] at h
  | ok a => exact ⟨a, rfl, by simpa [Except.map] using h⟩

/-- Counting close commands distributes over cons. -/
theorem countClose_cons (c : PathCmd) (l : List PathCmd) :
    countClose (c :: l) =
      (if c = PathCmd.close then 1 else 0) + countClose l := by
  simp only [countClose, List.countP_cons]
  rcases h : decide (c = PathCmd.close) with _ | _ <;>
    simp_all <;> omega

/-- Counting close commands distributes over append. -/
theorem countClose_append (l l2 : List PathCmd) :
    countClose (l ++ l2) = countClose l + countClose l2 := by
  simp [countClose, List.countP_append]

/-- The per-point walk of a contour emits no close command. -/
theorem contourWalk_countClose (tx ty : ℚ) (firstPt : ContourPoint) :
    ∀ (rest : List ContourPoint) (prevPt : ContourPoint)
      (curvePt : Option (ℚ × ℚ)) (cmds : List PathCmd),
      contourWalk tx ty firstPt prevPt curvePt rest = .ok cmds →
      countClose cmds = 0 := by
  intro rest
  induction rest with
  | nil =>
    intro prevPt curvePt cmds h
    cases curvePt <;> simp only [contourWalk, Except.ok.injEq] at h <;>
      subst h <;> simp [countClose]
  | cons pt rest ih =>
    intro prevPt curvePt cmds h
    simp only [contourWalk] at h
    split_ifs at h
    · obtain ⟨a, ha, rfl⟩ := except_map_ok h
      rw [countClose_cons, ih _ _ _ ha]
      simp
    · exact ih _ _ _ h
    · obtain ⟨a, ha, rfl⟩ := except_map_ok h
      rw [countClose_cons, ih _ _ _ ha]
      simp
    · rcases curvePt with _ | c
      · simp at h
      · simp only [] at h
        obtain ⟨a, ha, rfl⟩ := except_map_ok h
        rw [countClose_cons, ih _ _ _ ha]
        simp

/-- The commands of one contour contain no close command. -/
theorem contourCommands_countClose (tx ty : ℚ)
    (contour : List ContourPoint) (cmds : List PathCmd)
    (h : contourCommands tx ty contour = .ok cmds) : countClose cmds = 0 := by
  rcases contour with _ | ⟨firstPt, rest⟩
  · simp only [contourCommands, Except.ok.injEq] at h
    subst h; simp [countClose]
  · simp only [contourCommands] at h
    split_ifs at h
    · obtain ⟨a, ha, rfl⟩ := except_map_ok h
      rw [countClose_cons, contourWalk_countClose _ _ _ _ _ _ _ ha]
      simp
    · obtain ⟨a, ha, rfl⟩ := except_map_ok h
      rw [countClose_cons, contourWalk_countClose _ _ _ _ _ _ _ ha]
      simp

/-- The concatenated contour commands contain no close command. -/
theorem pathCommandsOfContours_countClose (tx ty : ℚ) :
    ∀ (contours : List (List ContourPoint)) (cmds : List PathCmd),
      pathCommandsOfContours tx ty contours = .ok cmds →
      countClose cmds = 0 := by
  intro contours
  induction contours with
  | nil =>
    intro cmds h
    simp only [pathCommandsOfContours, Except.ok.injEq] at h
    subst h; simp [countClose]
  | cons contour rest ih =>
    intro cmds h
    simp only [pathCommandsOfContours] at h
    rcases hc : contourCommands tx ty contour with e | cs
    · rw [hc] at h; cases h
    · rw [hc] at h
      rcases hr : pathCommandsOfContours tx ty rest with e | more
      · rw [hr] at h; cases h
      · rw [hr] at h
        simp only [Except.ok.injEq] at h
        subst h
        rw [countClose_append, contourCommands_countClose _ _ _ _ hc, ih _ hr]

/-- C5 (amended): `glyphToPath` emits each contour's closing segment back
to its first point inside the loop, and appends exactly one close command
for the whole path after the loop over the contours; so any glyph with a
point list yields a path containing exactly one close command, whatever
its contour count. -/
theorem glyphToPath_one_close (glyph : Glyph) (points : List ContourPoint)
    (tx ty : ℚ) (cmds : List PathCmd) (hp : glyph.points = some points)
    (h : glyphToPath glyph tx ty = .ok cmds) : countClose cmds = 1 := by
  simp only [glyphToPath, hp] at h
  split at h
  · simp at h
  · split at h
    · simp at h
    · rename_i contours heqc cs heqp
      simp only [Except.ok.injEq] at h
      subst h
      rw [countClose_append, pathCommandsOfContours_countClose _ _ _ _ heqp]
      simp [countClose]

/-- Counterexample to C5 as stated: a glyph with two contours yields a
path with exactly one close command, not two. -/
theorem glyphToPath_close_counterexample :
    getContours c5Points =
      .ok [[⟨0, 0, true, true⟩], [⟨10, 0, true, true⟩]] ∧
    (glyphToPath c5Glyph 0 0).map countClose = .ok 1 ∧
    (glyphToPath c5Glyph 0 0).map countClose ≠ .ok 2 :=
  ⟨by decide, by decide, by decide⟩

/-- Witness for C5 (amended): the two-contour glyph evaluated through the
amended statement yields exactly one close command. -/
theorem glyphToPath_one_close_witness : countClose c5WitnessCmds = 1 :=
  glyphToPath_one_close c5Glyph c5Points 0 0 c5WitnessCmds rfl rfl

/-- A byte read from a buffer of byte values is at most 255 (out-of-range
reads return the default 0). -/
theorem getByteD_le (data : List Nat) (i : Nat)
    (hb : ∀ b ∈ data, b ≤ 255) : getByteD data i ≤ 255 := by
  unfold getByteD
  rcases h : data[i]? with _ | b
  · simp [List.getD, h]
  · have hm : b ∈ data := by
      have := List.getElem?_eq_some_iff.mp h
      obtain ⟨hlt, hget⟩ := this
      exact hget ▸ List.getElem_mem hlt
    simpa [List.getD, h] using hb b hm

/-- Reading never changes the underlying data view: the component-body
parse returns a parser over the same buffer. -/
theorem parseComponentBody_data (p : Parser) :
    (parseComponentBody p).2.data = p.data := by
  simp only [parseComponentBody]
  split_ifs <;> rfl

/-- The flag word of a parsed component is the first 16-bit read. -/
theorem parseComponentBody_flags (p : Parser) :
    (parseComponentBody p).1.flags =
      getUShortD p.data (p.offset + p.relativeOffset) := by
  simp only [parseComponentBody]
  rfl

/-- With flag bit 0 clear, one parsed component's dx and dy are the two
unsigned bytes read after the glyph index. -/
theorem parseComponentBody_byte_args (p : Parser)
    (hb : ∀ b ∈ p.data, b ≤ 255)
    (h0 : isBitSet (parseComponentBody p).1.flags 0 = false) :
    0 ≤ (parseComponentBody p).1.dx ∧ (parseComponentBody p).1.dx ≤ 255 ∧
    0 ≤ (parseComponentBody p).1.dy ∧ (parseComponentBody p).1.dy ≤ 255 := by
  rw [parseComponentBody_flags] at h0
  have hdx : (parseComponentBody p).1.dx =
      ((getByteD p.data (p.offset + (p.relativeOffset + 2 + 2)) : Nat) : Int) := by
    simp only [parseComponentBody, Parser.parseUShort, Parser.parseByte, h0,
      Bool.false_eq_true, if_false]
  have hdy : (parseComponentBody p).1.dy =
      ((getByteD p.data (p.offset + (p.relativeOffset + 2 + 2 + 1)) : Nat) : Int) := by
    simp only [parseComponentBody, Parser.parseUShort, Parser.parseByte, h0,
      Bool.false_eq_true, if_false]
  refine ⟨?_, ?_, ?_, ?_⟩
  · rw [hdx]; positivity
  · rw [hdx]; exact_mod_cast getByteD_le p.data _ hb
  · rw [hdy]; positivity
  · rw [hdy]; exact_mod_cast getByteD_le p.data _ hb

/-- C10: when a composite component's translation arguments are byte-sized
(flag bit 0 clear), the decoder reads dx and dy as unsigned bytes, so for
every such parsed component both lie in `[0, 255]` and are never negative,
for any buffer of byte values. -/
theorem parseComponents_byte_args :
    ∀ (fuel : Nat) (p : Parser), (∀ b ∈ p.data, b ≤ 255) →
      ∀ c ∈ (parseComponents fuel p).1, isBitSet c.flags 0 = false →
        0 ≤ c.dx ∧ c.dx ≤ 255 ∧ 0 ≤ c.dy ∧ c.dy ≤ 255 := by
  intro fuel
  induction fuel with
  | zero => intro p hb c hc; simp [parseComponents] at hc
  | succ n ih =>
    intro p hb c hc h0
    simp only [parseComponents] at hc
    by_cases h5 : isBitSet (parseComponentBody p).1.flags 5
    · simp only [h5, if_true] at hc
      rcases List.mem_cons.mp hc with rfl | hmem
      · exact parseComponentBody_byte_args p hb h0
      · exact ih (parseComponentBody p).2
          (by rw [parseComponentBody_data]; exact hb) c hmem h0
    · simp only [h5, Bool.false_eq_true, if_false, List.mem_singleton] at hc
      subst hc
      exact parseComponentBody_byte_args p hb h0

/-- Absorbing a component preserves the glyph array length. -/
theorem absorbComponent_length (i : Nat) (gs : List Glyph) (c : Component) :
    (absorbComponent i gs c).length = gs.length := by
  simp only [absorbComponent]
  split <;> simp

/-- Absorbing components preserves the glyph array length. -/
theorem foldl_absorb_length (i : Nat) :
    ∀ (comps : List Component) (gs : List Glyph),
      (comps.foldl (absorbComponent i) gs).length = gs.length := by
  intro comps
  induction comps with
  | nil => intro gs; rfl
  | cons c rest ih =>
    intro gs
    simp only [List.foldl_cons]
    rw [ih, absorbComponent_length]

/-- Absorbing a component only writes the glyph at position `i`. -/
theorem absorbComponent_getD_ne (i j : Nat) (hij : j ≠ i)
    (gs : List Glyph) (c : Component) :
    (absorbComponent i gs c).getD j default = gs.getD j default := by
  simp only [absorbComponent]
  split
  · rw [List.getD_eq_getElem?_getD, List.getElem?_set_ne (Ne.symm hij),
      ← List.getD_eq_getElem?_getD]
  · rfl

/-- The component fold of one composite only writes position `i`. -/
theorem foldl_absorb_getD_ne (i j : Nat) (hij : j ≠ i) :
    ∀ (comps : List Component) (gs : List Glyph),
      (comps.foldl (absorbComponent i) gs).getD j default =
        gs.getD j default := by
  intro comps
  induction comps with
  | nil => intro gs; rfl
  | cons c rest ih =>
    intro gs
    simp only [List.foldl_cons]
    rw [ih, absorbComponent_getD_ne i j hij]

/-- One resolution step only writes the glyph at its own index. -/
theorem resolveStep_getD_ne (gs : List Glyph) (k j : Nat) (hjk : j ≠ k) :
    (resolveStep gs k).getD j default = gs.getD j default := by
  unfold resolveStep
  split
  · exact foldl_absorb_getD_ne k j hjk _ gs
  · rfl

/-- A non-composite entry is untouched by any sequence of resolution
steps. -/
theorem foldl_resolveStep_not_composite :
    ∀ (l : List Nat) (gs : List Glyph) (j : Nat),
      (gs.getD j default).isComposite = false →
      (l.foldl resolveStep gs).getD j default = gs.getD j default := by
  intro l
  induction l with
  | nil => intro gs j _; rfl
  | cons k rest ih =>
    intro gs j h
    simp only [List.foldl_cons]
    by_cases hk : j = k
    · subst hk
      have hstep : resolveStep gs j = gs := by
        unfold resolveStep
        rw [h]
        simp
      rw [hstep]
      exact ih gs j h
    · rw [ih _ j (by rw [resolveStep_getD_ne gs k j hk]; exact h),
        resolveStep_getD_ne gs k j hk]

/-- The composite second pass leaves non-composite glyphs unchanged. -/
theorem resolveComposites_not_composite (glyphs : List Glyph) (j : Nat)
    (h : (glyphs.getD j default).isComposite = false) :
    (resolveComposites glyphs).getD j default = glyphs.getD j default :=
  foldl_resolveStep_not_composite _ glyphs j h

/-- The first glyf pass yields one glyph per loca span, and a zero-length
span yields exactly the stub glyph. -/
theorem parseGlyfPass1_spec (data : List Nat) (start : Nat) :
    ∀ (pairs : List (Nat × Nat)) (i0 : Nat) (glyphs : List Glyph),
      parseGlyfPass1 data start pairs i0 = .ok glyphs →
      glyphs.length = pairs.length ∧
      ∀ k o, pairs[k]? = some (o, o) →
        glyphs.getD k default = emptyGlyph (i0 + k) := by
  intro pairs
  induction pairs with
  | nil =>
    intro i0 glyphs h
    simp only [parseGlyfPass1, Except.ok.injEq] at h
    subst h
    exact ⟨rfl, by intro k o hk; simp at hk⟩
  | cons pr rest ih =>
    intro i0 glyphs h
    rcases pr with ⟨o, nextO⟩
    simp only [parseGlyfPass1] at h
    split_ifs at h with ho
    · split at h
      · simp at h
      · split at h
        · simp at h
        · rename_i g hg gs hgs
          simp only [Except.ok.injEq] at h
          subst h
          obtain ⟨hlen, hk⟩ := ih (i0 + 1) gs hgs
          refine ⟨by simp [hlen], ?_⟩
          intro k o2 hok
          match k with
          | 0 =>
            simp only [List.getElem?_cons_zero, Option.some.injEq,
              Prod.mk.injEq] at hok
            exact absurd (hok.1.trans hok.2.symm) ho
          | k + 1 =>
            simp only [List.getElem?_cons_succ] at hok
            rw [List.getD_cons_succ, hk k o2 hok,
              show i0 + 1 + k = i0 + (k + 1) by omega]
    · split at h
      · simp at h
      · rename_i gs hgs
        simp only [Except.ok.injEq] at h
        subst h
        obtain ⟨hlen, hk⟩ := ih (i0 + 1) gs hgs
        refine ⟨by simp [hlen], ?_⟩
        intro k o2 hok
        match k with
        | 0 => simp [List.getD_cons_zero]
        | k + 1 =>
          simp only [List.getElem?_cons_succ] at hok
          rw [List.getD_cons_succ, hk k o2 hok,
            show i0 + 1 + k = i0 + (k + 1) by omega]

/-- Counterexample to C4 as stated: a glyph parsed with contour count 0
from a nonzero loca span keeps the bounding box of its header bytes —
here (1, 0, 0, 0) — and its outline path holds one (close) command, not
zero. -/
theorem parseGlyph_zero_contours_counterexample :
    parseGlyph c4Data 0 0 = .ok c4ParsedGlyph ∧
    c4ParsedGlyph.numberOfContours = 0 ∧
    ¬(c4ParsedGlyph.xMin = 0 ∧ c4ParsedGlyph.yMin = 0 ∧
      c4ParsedGlyph.xMax = 0 ∧ c4ParsedGlyph.yMax = 0) ∧
    (glyphToPath c4ParsedGlyph 0 0).map List.length = .ok 1 ∧
    (glyphToPath c4ParsedGlyph 0 0).map List.length ≠ .ok 0 :=
  ⟨by decide, by decide, by decide, by decide, by decide⟩

/-- C4 (amended): a glyph whose loca span is zero-length is decoded as the
stub with no points array and bounding box (0, 0, 0, 0), and its outline
path has zero commands; a glyph parsed with contour count 0 has an empty
point list and bounding box read from its header, and its outline path is
exactly the one trailing close command. -/
theorem glyf_empty_glyph_spec :
    (∀ (data : List Nat) (start : Nat) (loca : List Nat)
       (glyphs : List Glyph) (i : Nat) (tx ty : ℚ),
       parseGlyfTable data start loca = .ok glyphs →
       i + 1 < loca.length → loca.getD i 0 = loca.getD (i + 1) 0 →
       glyphs.getD i default = emptyGlyph i ∧
       (glyphs.getD i default).points = none ∧
       (glyphs.getD i default).xMin = 0 ∧ (glyphs.getD i default).yMin = 0 ∧
       (glyphs.getD i default).xMax = 0 ∧ (glyphs.getD i default).yMax = 0 ∧
       glyphToPath (glyphs.getD i default) tx ty = .ok []) ∧
    (∀ (data : List Nat) (start index : Nat) (g : Glyph) (tx ty : ℚ),
       parseGlyph data start index = .ok g → g.numberOfContours = 0 →
       g.points = some [] ∧ glyphToPath g tx ty = .ok [.close]) := by
  constructor
  · intro data start loca glyphs i tx ty h hi hspan
    unfold parseGlyfTable at h
    split at h
    · simp at h
    · rename_i gs hpass
      simp only [Except.ok.injEq] at h
      subst h
      obtain ⟨hlen, hk⟩ := parseGlyfPass1_spec data start _ 0 gs hpass
      have hloca : loca[i]? = some (loca.getD i 0) := by
        rw [List.getD_eq_getElem?_getD]
        rcases hx : loca[i]? with _ | v
        · rw [List.getElem?_eq_none_iff] at hx; omega
        · rfl
      have htail : loca.tail[i]? = some (loca.getD i 0) := by
        rw [List.getElem?_tail, hspan, List.getD_eq_getElem?_getD]
        rcases hx : loca[i + 1]? with _ | v
        · rw [List.getElem?_eq_none_iff] at hx; omega
        · rfl
      have hzip : (loca.zip loca.tail)[i]? =
          some (loca.getD i 0, loca.getD i 0) := by
        rw [List.getElem?_zip_eq_some]
        exact ⟨hloca, htail⟩
      have hstub : gs.getD i default = emptyGlyph (0 + i) := hk i _ hzip
      rw [Nat.zero_add] at hstub
      have hnc : (gs.getD i default).isComposite = false := by
        rw [hstub]; rfl
      rw [resolveComposites_not_composite gs i hnc, hstub]
      exact ⟨rfl, rfl, rfl, rfl, rfl, rfl, rfl⟩
  · intro data start index g tx ty h hg0
    simp only [parseGlyph] at h
    split_ifs at h with h1 h2 h3 h4
    all_goals
      first
      | exact (Except.noConfusion h)
      | (cases h
         refine ⟨rfl, by simp [glyphToPath, getContours, pathCommandsOfContours]⟩)
      | (cases h
         simp at hg0
         omega)

/-- Witness for C4 (amended): a one-glyph font whose only loca span is
zero-length, and the concrete contour-count-0 glyph. -/
theorem glyf_empty_glyph_spec_witness :
    glyphToPath (([emptyGlyph 0] : List Glyph).getD 0 default) 0 0 = .ok [] ∧
    c4ParsedGlyph.points = some [] ∧
    glyphToPath c4ParsedGlyph 0 0 = .ok [.close] :=
  ⟨(glyf_empty_glyph_spec.1 [] 0 [0, 0] [emptyGlyph 0] 0 0 0 (by decide)
      (by norm_num) (by decide)).2.2.2.2.2.2,
   (glyf_empty_glyph_spec.2 c4Data 0 0 c4ParsedGlyph 0 0 (by decide)
      (by decide)).1,
   (glyf_empty_glyph_spec.2 c4Data 0 0 c4ParsedGlyph 0 0 (by decide)
      (by decide)).2⟩

/-- A slot whose points array is present names a real position. -/
theorem points_some_lt (gs : List Glyph) (i : Nat) (pts : List ContourPoint)
    (h : (gs.getD i default).points = some pts) : i < gs.length := by
  by_contra hc
  rw [List.getD_eq_default _ _ (by omega)] at h
  exact Option.noConfusion h

/-- A translated point of the component list. -/
theorem mem_transformPoints (pts : List ContourPoint) (dx dy : Int)
    (pt : ContourPoint) (h : pt ∈ pts) :
    ({ x := pt.x + dx, y := pt.y + dy, onCurve := pt.onCurve,
       lastPointOfContour := pt.lastPointOfContour } : ContourPoint) ∈
      transformPoints pts dx dy := by
  unfold transformPoints
  exact List.mem_map.mpr ⟨pt, h, rfl⟩

/-- Absorbing any component only appends to the points of the glyph at
position `i`. -/
theorem absorbComponent_points_extend (i : Nat) (gs : List Glyph)
    (c : Component) (pts : List ContourPoint)
    (hgp : (gs.getD i default).points = some pts) :
    ∃ extra, ((absorbComponent i gs c).getD i default).points =
      some (pts ++ extra) := by
  have hi : i < gs.length := points_some_lt gs i pts hgp
  simp only [absorbComponent]
  split
  · rename_i cps gps hcps hgps
    obtain rfl : gps = pts := by
      have := hgp.symm.trans hgps
      injection this with h2
      exact h2.symm
    refine ⟨transformPoints cps c.dx c.dy, ?_⟩
    rw [List.getD_eq_getElem?_getD, List.getElem?_set_eq (by simpa using hi)]
    rfl
  · exact ⟨[], by simpa using hgp⟩

/-- The component fold only appends to the points at position `i`. -/
theorem foldl_absorb_points_extend (i : Nat) :
    ∀ (comps : List Component) (gs : List Glyph) (pts : List ContourPoint),
      (gs.getD i default).points = some pts →
      ∃ extra, ((comps.foldl (absorbComponent i) gs).getD i default).points =
        some (pts ++ extra) := by
  intro comps
  induction comps with
  | nil => intro gs pts h; exact ⟨[], by simpa using h⟩
  | cons c rest ih =>
    intro gs pts h
    obtain ⟨e1, h1⟩ := absorbComponent_points_extend i gs c pts h
    obtain ⟨e2, h2⟩ := ih (absorbComponent i gs c) (pts ++ e1) h1
    exact ⟨e1 ++ e2, by simpa [List.append_assoc] using h2⟩

/-- Absorbing a component with resolvable points appends exactly their
translation to the points of the glyph at position `i`. -/
theorem absorbComponent_mem (i : Nat) (gs : List Glyph) (comp : Component)
    (cps pts : List ContourPoint)
    (hcg : (gs.getD comp.glyphIndex default).points = some cps)
    (hgp : (gs.getD i default).points = some pts) :
    ((absorbComponent i gs comp).getD i default).points =
      some (pts ++ transformPoints cps comp.dx comp.dy) := by
  have hi : i < gs.length := points_some_lt gs i pts hgp
  simp only [absorbComponent, hcg, hgp]
  rw [List.getD_eq_getElem?_getD, List.getElem?_set_eq (by simpa using hi)]
  rfl

/-- A point contributed by any component of the list survives the whole
component fold of the composite at position `i`. -/
theorem foldl_absorb_mem (i : Nat) :
    ∀ (comps : List Component) (gs : List Glyph) (comp : Component)
      (cps pts : List ContourPoint) (pt : ContourPoint),
      comp ∈ comps → comp.glyphIndex ≠ i →
      (gs.getD comp.glyphIndex default).points = some cps → pt ∈ cps →
      (gs.getD i default).points = some pts →
      ∃ pts2,
        ((comps.foldl (absorbComponent i) gs).getD i default).points =
          some pts2 ∧
        ({ x := pt.x + comp.dx, y := pt.y + comp.dy, onCurve := pt.onCurve,
           lastPointOfContour := pt.lastPointOfContour } : ContourPoint) ∈
          pts2 := by
  intro comps
  induction comps with
  | nil =>
    intro gs comp cps pts pt hmem
    simp at hmem
  | cons c rest ih =>
    intro gs comp cps pts pt hmem hki hcg hpt hgp
    simp only [List.foldl_cons]
    rcases List.mem_cons.mp hmem with rfl | hmem2
    · have habs := absorbComponent_mem i gs comp cps pts hcg hgp
      obtain ⟨extra, hext⟩ :=
        foldl_absorb_points_extend i rest (absorbComponent i gs comp) _ habs
      refine ⟨_, hext, ?_⟩
      exact List.mem_append_left _
        (List.mem_append_right _ (mem_transformPoints cps comp.dx comp.dy pt hpt))
    · obtain ⟨e1, h1⟩ := absorbComponent_points_extend i gs c pts hgp
      exact ih (absorbComponent i gs c) comp cps (pts ++ e1) pt hmem2 hki
        (by rw [absorbComponent_getD_ne i comp.glyphIndex hki]; exact hcg)
        hpt h1

/-- A slot whose index occurs nowhere in the step list is untouched. -/
theorem foldl_resolveStep_getD_notin :
    ∀ (l : List Nat) (gs : List Glyph) (j : Nat), (∀ m ∈ l, m ≠ j) →
      (l.foldl resolveStep gs).getD j default = gs.getD j default := by
  intro l
  induction l with
  | nil => intro gs j _; rfl
  | cons k rest ih =>
    intro gs j h
    simp only [List.foldl_cons]
    rw [ih _ j fun m hm => h m (List.mem_cons_of_mem _ hm),
      resolveStep_getD_ne gs k j (Ne.symm (h k (List.mem_cons_self k rest)))]

/-- The resolution step at a composite index runs the component fold. -/
theorem resolveStep_composite (gs : List Glyph) (i : Nat)
    (h : (gs.getD i default).isComposite = true) :
    resolveStep gs i = resolveComponentsAt gs i := by
  unfold resolveStep
  rw [h]
  simp

/-- C7: the composite second pass translates component points: for a
composite glyph at position `i` holding a component with offsets
`(dx, dy)` whose referenced glyph is simple and has a point `pt`, the
resolved point list of the composite contains the point translated by
`(dx, dy)`, with the on-curve and contour-boundary flags preserved. -/
theorem resolveComposites_translates (glyphs : List Glyph) (i : Nat)
    (comp : Component) (ips cps : List ContourPoint) (pt : ContourPoint)
    (hcomp : (glyphs.getD i default).isComposite = true)
    (hips : (glyphs.getD i default).points = some ips)
    (hc : comp ∈ (glyphs.getD i default).components)
    (hsimple : (glyphs.getD comp.glyphIndex default).isComposite = false)
    (hcg : (glyphs.getD comp.glyphIndex default).points = some cps)
    (hpt : pt ∈ cps) :
    ∃ pts2,
      ((resolveComposites glyphs).getD i default).points = some pts2 ∧
      ({ x := pt.x + comp.dx, y := pt.y + comp.dy, onCurve := pt.onCurve,
         lastPointOfContour := pt.lastPointOfContour } : ContourPoint) ∈
        pts2 := by
  have hki : comp.glyphIndex ≠ i := by
    intro he
    rw [he, hcomp] at hsimple
    cases hsimple
  have hi : i < glyphs.length := points_some_lt glyphs i ips hips
  unfold resolveComposites
  have hsplit : List.range glyphs.length = List.range' 0 i ++ i ::
      List.range' (i + 1) (glyphs.length - (i + 1)) := by
    rw [List.range_eq_range']
    have h2 : (i :: List.range' (i + 1) (glyphs.length - (i + 1)) :
        List Nat) = List.range' i (glyphs.length - i) := by
      rw [show (glyphs.length - i : Nat) = (glyphs.length - (i + 1)) + 1 by
        omega, List.range'_succ]
    rw [h2]
    have h1 := List.range'_append 0 i (glyphs.length - i) 1
    simp only [Nat.zero_add, Nat.one_mul] at h1
    rw [h1, show glyphs.length - i + i = glyphs.length by omega]
  rw [hsplit, List.foldl_append]
  simp only [List.foldl_cons]
  have hpre_i : ((List.range' 0 i).foldl resolveStep glyphs).getD i default =
      glyphs.getD i default :=
    foldl_resolveStep_getD_notin _ glyphs i fun m hm => by
      have := List.mem_range'_1.mp hm
      omega
  have hpre_k : ((List.range' 0 i).foldl resolveStep glyphs).getD
      comp.glyphIndex default = glyphs.getD comp.glyphIndex default :=
    foldl_resolveStep_not_composite _ glyphs comp.glyphIndex hsimple
  have hstep : resolveStep ((List.range' 0 i).foldl resolveStep glyphs) i =
      resolveComponentsAt ((List.range' 0 i).foldl resolveStep glyphs) i :=
    resolveStep_composite _ i (by rw [hpre_i]; exact hcomp)
  rw [hstep]
  obtain ⟨pts2, hpts2, hmem⟩ := foldl_absorb_mem i
    (((List.range' 0 i).foldl resolveStep glyphs).getD i default).components
    ((List.range' 0 i).foldl resolveStep glyphs) comp cps ips pt
    (by rw [hpre_i]; exact hc) hki (by rw [hpre_k]; exact hcg) hpt
    (by rw [hpre_i]; exact hips)
  refine ⟨pts2, ?_, hmem⟩
  rw [foldl_resolveStep_getD_notin _ _ i fun m hm => by
    have := List.mem_range'_1.mp hm
    omega]
  exact hpts2

/-- Witness for C7: the claim's concrete instance — a composite at index 0
referencing glyph 3 with offsets (10, 20), where glyph 3 has the point
(5, 5); the resolved points contain (15, 25). -/
theorem resolveComposites_translates_witness :
    ∃ pts2,
      ((resolveComposites c7Glyphs).getD 0 default).points = some pts2 ∧
      (⟨5 + 10, 5 + 20, true, true⟩ : ContourPoint) ∈ pts2 :=
  resolveComposites_translates c7Glyphs 0 c7Component [] [⟨5, 5, true, true⟩]
    ⟨5, 5, true, true⟩ (by decide) (by decide) (by decide) (by decide)
    (by decide) (by decide)

/-- In a sorted segment table the segment starts are strictly ascending. -/
theorem sorted_start_lt (ranges : List CmapRange) (hs : SortedRanges ranges)
    (i j : Nat) (hij : i < j) (hj : j < ranges.length) :
    (ranges.getD i default).start < (ranges.getD j default).start :=
  lt_of_le_of_lt (hs.1 i (lt_trans hij hj)) (hs.2 j hj i hij)

/-- Invariant of the binary search loop of `charToGlyphIndex`: starting
from a window whose left edge is 0 or starts at or before the code, and
beyond whose right edge every segment starts after the code, the loop
lands on a position with the same two properties. -/
theorem cmapSearchGo_spec (ranges : List CmapRange) (code : Nat)
    (hs : SortedRanges ranges) :
    ∀ (fuel l r : Nat), r - l < fuel → l ≤ r → r < ranges.length →
      (l = 0 ∨ (ranges.getD l default).start ≤ code) →
      (∀ k, r < k → k < ranges.length →
        code < (ranges.getD k default).start) →
      l ≤ cmapSearchGo ranges code fuel l r ∧
      cmapSearchGo ranges code fuel l r ≤ r ∧
      (cmapSearchGo ranges code fuel l r = 0 ∨
        (ranges.getD (cmapSearchGo ranges code fuel l r) default).start ≤
          code) ∧
      (∀ k, cmapSearchGo ranges code fuel l r < k → k < ranges.length →
        code < (ranges.getD k default).start) := by
  intro fuel
  induction fuel with
  | zero => intro l r hfuel; omega
  | succ n ih =>
    intro l r hfuel hlr hr hbase habove
    simp only [cmapSearchGo]
    by_cases hlt : l < r
    · rw [if_pos hlt]
      have hcl : l < (l + r + 1) / 2 := by omega
      have hcr : (l + r + 1) / 2 ≤ r := by omega
      by_cases hcode : code < (ranges.getD ((l + r + 1) / 2) default).start
      · rw [if_pos hcode]
        have habove2 : ∀ k, (l + r + 1) / 2 - 1 < k → k < ranges.length →
            code < (ranges.getD k default).start := by
          intro k hk1 hk2
          by_cases hkr : r < k
          · exact habove k hkr hk2
          · rcases Nat.eq_or_lt_of_le (show (l + r + 1) / 2 ≤ k by omega) with
              heq | hck
            · exact heq ▸ hcode
            · exact lt_trans hcode
                (sorted_start_lt ranges hs ((l + r + 1) / 2) k hck hk2)
        obtain ⟨ha, hb, hc2, hd⟩ := ih l ((l + r + 1) / 2 - 1) (by omega)
          (by omega) (by omega) hbase habove2
        exact ⟨ha, by omega, hc2, hd⟩
      · rw [if_neg hcode]
        have hbase2 : (l + r + 1) / 2 = 0 ∨
            (ranges.getD ((l + r + 1) / 2) default).start ≤ code :=
          Or.inr (by omega)
        obtain ⟨ha, hb, hc2, hd⟩ :=
          ih ((l + r + 1) / 2) r (by omega) (by omega) hr hbase2 habove
        exact ⟨by omega, hb, hc2, hd⟩
    · rw [if_neg hlt]
      have hlr2 : l = r := by omega
      refine ⟨le_refl l, by omega, hbase, ?_⟩
      subst hlr2
      exact habove

/-- C2: on a table of ascending non-overlapping segments, a code point
inside a segment with no explicit id array maps to
`(idDelta + code) & 0xFFFF`, and a code point inside no segment maps to 0
(`.notdef`). -/
theorem charToGlyphIndex_spec (ranges : List CmapRange) (code : Nat)
    (hs : SortedRanges ranges) (hne : 0 < ranges.length) :
    (∀ i, i < ranges.length → (ranges.getD i default).ids = none →
      (ranges.getD i default).start ≤ code →
      code ≤ (ranges.getD i default).endCode →
      charToGlyphIndex ranges code =
        (((ranges.getD i default).idDelta + (code : Int)) % 65536).toNat) ∧
    ((∀ i, i < ranges.length →
        ¬((ranges.getD i default).start ≤ code ∧
          code ≤ (ranges.getD i default).endCode)) →
      charToGlyphIndex ranges code = 0) := by
  obtain ⟨h1, h2, h3, h4⟩ := cmapSearchGo_spec ranges code hs ranges.length 0
    (ranges.length - 1) (by omega) (by omega) (by omega) (Or.inl rfl)
    (fun k hk1 hk2 => by omega)
  set m := cmapSearchGo ranges code ranges.length 0 (ranges.length - 1)
    with hm
  have hml : m < ranges.length := by omega
  constructor
  · intro i hi hids hstart hend
    have hmi : m = i := by
      rcases Nat.lt_trichotomy m i with hlt | heq | hgt
      · have := h4 i hlt hi
        omega
      · exact heq
      · have hm0 : m ≠ 0 := by omega
        have hsm : (ranges.getD m default).start ≤ code :=
          h3.resolve_left hm0
        have := hs.2 m hml i hgt
        omega
    simp only [charToGlyphIndex]
    rw [← hm, hmi, if_pos ⟨hstart, hend⟩, hids]
  · intro hnone
    have hcond : ¬((ranges.getD m default).start ≤ code ∧
        code ≤ (ranges.getD m default).endCode) := hnone m hml
    simp only [charToGlyphIndex]
    rw [← hm, if_neg hcond]

/-- Witness for C2: the concrete table evaluated at a mapped code point
(35, inside the second segment) and an unmapped one (25). -/
theorem charToGlyphIndex_spec_witness :
    charToGlyphIndex c2Ranges 35 =
      (((c2Ranges.getD 1 default).idDelta + (35 : Int)) % 65536).toNat ∧
    charToGlyphIndex c2Ranges 25 = 0 :=
  ⟨(charToGlyphIndex_spec c2Ranges 35 (by decide) (by decide)).1 1
      (by decide) (by decide) (by decide) (by decide),
   (charToGlyphIndex_spec c2Ranges 25 (by decide) (by decide)).2
      (by decide)⟩

/-- Witness for C10: one concrete byte-argument component. -/
theorem parseComponents_byte_args_witness :
    0 ≤ (⟨0, 3, 200, 220⟩ : Component).dx ∧
    (⟨0, 3, 200, 220⟩ : Component).dx ≤ 255 ∧
    0 ≤ (⟨0, 3, 200, 220⟩ : Component).dy ∧
    (⟨0, 3, 200, 220⟩ : Component).dy ≤ 255 :=
  parseComponents_byte_args 7 ⟨c10Data, 0, 0⟩ (by decide)
    ⟨0, 3, 200, 220⟩ (by decide) (by decide)

end OpenTypeJs
